import Mathlib

/-!
Verification of the Connect Loop algorithm (`connect_loop.py`).

The development shallowly embeds the algorithmic core of the add-on:

* a mesh is modelled as vertex coordinates (exact integer triples standing for
  the float coordinates actually used), an edge list, a per-vertex selection
  flag list, and an optional active vertex (`select_history.active`);
* `linked_verts` embeds `ConnectLoop._linked_verts` (the recursive depth-
  bounded traversal with the shared, in-place mutated `verts` set; Python's
  set-iteration order is unspecified, the embedding fixes the edge-list
  order, one faithful instantiation);
* `prune` embeds the boundary-priority pass (lines 50-62), iterating over
  vertices in index order, re-reading the live selection flags exactly as the
  lazy generator in the source does;
* `build` embeds the while-loop (lines 82-100) including the overflow guard
  `_i > _l` and the `bm.verts[index] if index else None` step;
* `chunks` embeds `ConnectLoop._chunks`, and `connect_loop` the whole entry
  point, with Python exceptions (`list.remove` on a missing element,
  `bmesh.edges.new` on an existing edge or equal vertices) embedded as
  `Except.error`.

The spatial index (`mathutils.kdtree`) and the face-splitting operator
(`bmesh.ops.connect_vert_pair`) are external collaborators, not code of this
repository; they are modelled from the spec where indicated.
-/

/-- Selection flag of vertex `v`: `S[v]`, `false` out of range (a vertex
outside the flag list is never selected). -/
def selAt (S : List Bool) (v : Nat) : Bool :=
  S.getD v false

/-- Neighbours of `v` through the edge list, in edge-list order: the embedding
of `[_edge.other_vert(bm_vert) for _edge in bm_vert.link_edges]`. -/
def nbrs (E : List (Nat × Nat)) (v : Nat) : List Nat :=
  E.foldr (fun e acc => if e.1 = v then e.2 :: acc else if e.2 = v then e.1 :: acc else acc) []

/-- Whether some mesh edge joins `a` and `b` (in either orientation). -/
def adj (E : List (Nat × Nat)) (a b : Nat) : Bool :=
  E.any (fun e => (e.1 == a && e.2 == b) || (e.1 == b && e.2 == a))

/-- Number of edges incident to `v`: the embedding of `len(vertex.link_edges)`. -/
def degree (E : List (Nat × Nat)) (v : Nat) : Nat :=
  (E.filter (fun e => e.1 == v || e.2 == v)).length

/-- Worker of `ConnectLoop._linked_verts`: at positive remaining depth,
collect the selected neighbours of `v` not yet in `verts` (the Python set
comprehension), append them, then expand each of them with depth one less,
threading the shared `verts` set exactly as the in-place `|=` mutation does. -/
def lvExpand (E : List (Nat × Nat)) (S : List Bool) : Nat → Nat → List Nat → List Nat
  | 0, _, verts => verts
  | d + 1, v, verts =>
    let news := ((nbrs E v).filter (fun u => selAt S u && !(verts.contains u))).dedup
    news.foldl (fun acc u => lvExpand E S d u acc) (verts ++ news)

/-- Embedding of `ConnectLoop._linked_verts(bm_vert, deep)` (initial call,
`verts = {bm_vert}`). -/
def linked_verts (E : List (Nat × Nat)) (S : List Bool) (bm_vert deep : Nat) : List Nat :=
  lvExpand E S deep bm_vert [bm_vert]

/-- The fixed recursion depth `ConnectLoop._linked_verts_recursive_deep`. -/
def linked_verts_recursive_deep : Nat := 10

/-- Deselect every vertex in `l`: the embedding of the
`linked_vertex.select = False` loop. -/
def deselect (S : List Bool) (l : List Nat) : List Bool :=
  l.foldl (fun s u => s.set u false) S

/-- One step of the boundary-priority pass for vertex `v`: if `v` is selected
and has exactly one incident edge, deselect everything `_linked_verts` reaches
from it except `v` itself (lines 56-61 of the source). -/
def pruneStep (E : List (Nat × Nat)) (S : List Bool) (v : Nat) : List Bool :=
  if selAt S v && (degree E v == 1) then
    deselect S ((linked_verts E S v linked_verts_recursive_deep).filter (fun u => u != v))
  else S

/-- The whole boundary-priority pass: iterate over all `n` vertices in index
order; the selection test inside `pruneStep` re-reads the live flags, exactly
as the lazy generator over `bm.verts` does in the source. -/
def prune (E : List (Nat × Nat)) (n : Nat) (S : List Bool) : List Bool :=
  (List.range n).foldl (pruneStep E) S

/-- Squared euclidean distance of two integer points. -/
def dist2 (a b : Int × Int × Int) : Int :=
  (a.1 - b.1) * (a.1 - b.1) + (a.2.1 - b.2.1) * (a.2.1 - b.2.1)
    + (a.2.2 - b.2.2) * (a.2.2 - b.2.2)

/-- Modelled from the spec: the spatial-index query `kd.find(co, filter=flt)`
(`mathutils.kdtree` is an external collaborator, not code of this repository).
Per §2/§3 it returns a nearest inserted point whose index passes the filter
`flt` (index not in `loop` and index in the live candidate list), stale index
entries being tolerated and rejected by the filter; per §9 the tie-break is an
unspecified deterministic implementation detail, fixed here as
first-inserted-wins (strict improvement only). Returns `none` when no inserted
point passes the filter, as `kd.find` returns `(None, None, None)`. -/
def kdFind (coords : List (Int × Int × Int)) (kdpts : List Nat) (q : Int × Int × Int)
    (loop cand : List Nat) : Option Nat :=
  kdpts.foldl
    (fun best i =>
      if !(loop.contains i) && cand.contains i then
        match best with
        | none => some i
        | some b =>
          if dist2 (coords.getD i (0, 0, 0)) q < dist2 (coords.getD b (0, 0, 0)) q then
            some i
          else best
      else best)
    none

/-- Embedding of the while-loop of `connect_loop` (lines 86-100).  State:
`loop` is the loop built so far, `cand` the live `selected_vertices` list,
`cur` the current vertex (the loop is only entered with a truthy
`current_vertex`), `i` the step counter `_i`, and `l` the recorded initial
candidate count `_l`.  Each call is one execution of the loop body: remove
everything edge-linked to `cur` from the candidates, query the index, then
`current_vertex = bm.verts[index] if index else None` — note that this embeds
the source's truthiness test, which also maps index `0` to `None`.  Returns
the final loop together with the final value of `_i` (the number of body
executions). -/
def buildGo (E : List (Nat × Nat)) (S : List Bool) (coords : List (Int × Int × Int))
    (kdpts : List Nat) (l : Nat) : Nat → List Nat → List Nat → Nat → Nat → List Nat × Nat
  | fuel, loop, cand, cur, i =>
    let linked := linked_verts E S cur linked_verts_recursive_deep
    let cand1 := cand.filter (fun u => !(linked.contains u))
    match (kdFind coords kdpts (coords.getD cur (0, 0, 0)) loop cand1).bind
        (fun idx => if idx = 0 then none else some idx) with
    | some nv =>
      if i + 1 > l then (loop ++ [nv], i + 1)
      else
        match fuel with
        | 0 => (loop ++ [nv], i + 1)
        | f + 1 => buildGo E S coords kdpts l f (loop ++ [nv]) (cand1.erase nv) nv (i + 1)
    | none => (loop, i + 1)

/-- The while-loop itself, entered with counter `_i = i`.  The `fuel`
argument of the worker is a pure termination device kept equal to `l - i`:
the loop continues only when `i + 1 ≤ l`, so `fuel` is then positive and the
worker's exhaustion branch (which duplicates the overflow break) is never
reached; `build_unfold` below recovers the literal one-step unfolding of the
source loop. -/
def build (E : List (Nat × Nat)) (S : List Bool) (coords : List (Int × Int × Int))
    (kdpts : List Nat) (l : Nat) (loop cand : List Nat) (cur i : Nat) : List Nat × Nat :=
  buildGo E S coords kdpts l (l - i) loop cand cur i

/-- Embedding of Python's `range(0, stop, step)` for a non-negative `step`
(the source only instantiates `step = n - offset = 1`; Python raises on a zero
step, embedded as the empty range, a case no caller reaches). -/
def pyRange (stop step : Nat) : List Nat :=
  if step = 0 then [] else (List.range ((stop + step - 1) / step)).map (fun k => k * step)

/-- Embedding of `ConnectLoop._chunks(lst, n, offset)`: the slices
`lst[i : i + n]` for `i` in `range(0, len(lst), n - offset)`. -/
def chunks (lst : List Nat) (n offset : Nat) : List (List Nat) :=
  (pyRange lst.length (n - offset)).map (fun i => (lst.drop i).take n)

/-- Modelled from the spec: `bmesh.ops.connect_vert_pair` (§4.5, the external
EdgeMaterializer) connects two points by splitting a face between them and
returns the edges it created; the model carries meshes without faces, on which
the operator creates nothing. -/
def connect_vert_pair (_es : List (Nat × Nat)) (_a _b : Nat) : List (Nat × Nat) :=
  []

/-- Embedding of `bm.edges.new(chunk)`: raises `ValueError` when the two
vertices coincide or an edge between them already exists, otherwise appends
the new edge. -/
def edgesNew (es : List (Nat × Nat)) (a b : Nat) : Except String (List (Nat × Nat)) :=
  if a = b then .error "ValueError: edges.new: vertices are the same"
  else if adj es a b then .error "ValueError: edges.new: edge already exists"
  else .ok (es ++ [(a, b)])

/-- Embedding of the loop body at lines 104-111 for one chunk: try
`connect_vert_pair`; if it created no edges, fall back to `edges.new`.  Only
chunks of length 2 reach the body (the generator filter); any other shape is
unreachable. -/
def emitChunk (es : List (Nat × Nat)) (chunk : List Nat) : Except String (List (Nat × Nat)) :=
  match chunk with
  | [a, b] =>
    if (connect_vert_pair es a b).isEmpty then edgesNew es a b else .ok es
  | _ => .error "unreachable: chunk of size other than two"

/-- The mesh state handed to `connect_loop`: coordinates, edge list, vertex
selection flags, and the active vertex of the selection history (`none` when
the history is empty; deselecting a vertex does not purge it from the
history, so the active vertex need not be selected). -/
structure BMesh where
  coords : List (Int × Int × Int)
  edges : List (Nat × Nat)
  sel : List Bool
  active : Option Nat
deriving Repr, DecidableEq

/-- Selection flags after the optional boundary-priority pass (lines 50-62):
pruned when `boundary_priority` is set, untouched otherwise. -/
def prunedSel (m : BMesh) (bp : Bool) : List Bool :=
  if bp then prune m.edges m.coords.length m.sel else m.sel

/-- The `selected_vertices` list of line 64: all vertices selected after the
optional pruning pass, in index order (also the KD-tree insertion order). -/
def selVerts (m : BMesh) (bp : Bool) : List Nat :=
  (List.range m.coords.length).filter (fun v => selAt (prunedSel m bp) v)

/-- The candidate list right after `selected_vertices.remove(active)`
(line 73); empty when there is no active vertex. -/
def candInit (m : BMesh) (bp : Bool) : List Nat :=
  match m.active with
  | some a => (selVerts m bp).erase a
  | none => []

/-- The loop of vertices accumulated by the while-loop, for runs that reach
it: seeded with the active vertex, empty when there is no active vertex or
the seeding `remove` would raise. -/
def builtLoop (m : BMesh) (bp : Bool) : List Nat :=
  match m.active with
  | none => []
  | some a =>
    if a ∈ selVerts m bp then
      (build m.edges (prunedSel m bp) m.coords (selVerts m bp) (candInit m bp).length
        [a] (candInit m bp) a 0).1
    else []

/-- Embedding of `ConnectLoop.connect_loop` (mode handling and the final
`to_mesh` write-back aside, which do not affect the data): prune when asked,
list the selected vertices, and if there is an active vertex, remove it from
the candidates (`ValueError` when it is not there), build the loop and emit
one edge per full chunk; a raised exception aborts the run before any
write-back. -/
def connect_loop (m : BMesh) (bp : Bool) : Except String BMesh :=
  match m.active with
  | none => .ok { m with sel := prunedSel m bp }
  | some a =>
    if a ∈ selVerts m bp then
      match ((chunks (builtLoop m bp) 2 1).filter (fun c => c.length == 2)).foldlM
          emitChunk m.edges with
      | .ok es => .ok { m with sel := prunedSel m bp, edges := es }
      | .error e => .error e
    else .error "ValueError: list.remove(x): x not in list"

/-- Paths through selected vertices: `SelPathN E S v w n` holds when `w` is
reachable from `v` by a path of at most `n` edges all of whose vertices after
`v` are selected — the reachability notion of §4.1 used to state the
collector's contract. -/
inductive SelPathN (E : List (Nat × Nat)) (S : List Bool) (v : Nat) : Nat → Nat → Prop
  | refl : SelPathN E S v v 0
  | step {u w : Nat} {n : Nat} : SelPathN E S v u n → adj E u w = true →
      selAt S w = true → SelPathN E S v w (n + 1)

/-- Reachability through selected vertices, with no length bound: the
connected cluster of §4.2. -/
def SelPath (E : List (Nat × Nat)) (S : List Bool) (v w : Nat) : Prop :=
  ∃ n, SelPathN E S v w n

/-- The candidate-set discipline of the while-loop, used to state the Loop
invariant: `Extends E S loop cand cur ext` holds when `ext` is a sequence of
vertices each of which, at the moment it was appended, was a member of the
live candidate list (after the removal of everything `_linked_verts` reaches
from the tip) and not yet in the loop. -/
inductive Extends (E : List (Nat × Nat)) (S : List Bool) :
    List Nat → List Nat → Nat → List Nat → Prop
  | nil {loop cand : List Nat} {cur : Nat} : Extends E S loop cand cur []
  | cons {loop cand : List Nat} {cur nv : Nat} {ext : List Nat} :
      nv ∈ cand.filter (fun u => !((linked_verts E S cur linked_verts_recursive_deep).contains u)) →
      nv ∉ loop →
      Extends E S (loop ++ [nv])
        ((cand.filter (fun u => !((linked_verts E S cur linked_verts_recursive_deep).contains u))).erase nv)
        nv ext →
      Extends E S loop cand cur (nv :: ext)

/-! ### Concrete meshes used in the claim instances -/

/-- Square scenario of §8: four selected points on the unit square, no
pre-existing edges, the point at the origin active. -/
def meshSquare : BMesh :=
  ⟨[(0, 0, 0), (1, 0, 0), (1, 1, 0), (0, 1, 0)], [], [true, true, true, true], some 0⟩

/-- Three selected isolated points; the active one has index 1 and the
nearest remaining candidate has index 0. -/
def meshIndexZero : BMesh :=
  ⟨[(1, 0, 0), (0, 0, 0), (5, 0, 0)], [], [true, true, true], some 1⟩

/-- Two selected points joined by one edge, the second one active; both are
boundary points, so the pruning pass deselects the active one. -/
def meshChain2 : BMesh :=
  ⟨[(0, 0, 0), (1, 0, 0)], [(0, 1)], [true, true], some 1⟩

/-- The same two-point chain with an empty selection history. -/
def meshChain2NoActive : BMesh :=
  ⟨[(0, 0, 0), (1, 0, 0)], [(0, 1)], [true, true], none⟩

/-- Edges of a fourteen-vertex cluster: a path `0-…-11` ending in the
triangle `11-12-13`; vertex 0 is its only boundary point and vertices 11-13
lie more than ten edges away from it. -/
def edgesLongTail : List (Nat × Nat) :=
  [(0, 1), (1, 2), (2, 3), (3, 4), (4, 5), (5, 6), (6, 7), (7, 8), (8, 9), (9, 10),
   (10, 11), (11, 12), (12, 13), (13, 11)]

/-- All fourteen vertices of the long-tail cluster selected. -/
def selLongTail : List Bool := List.replicate 14 true

/-- Edges of a six-vertex graph on which the depth-limited traversal with its
shared visited set first reaches vertex 4 through the long branch `0-1-3-4`
and therefore never expands it towards 5, although `0-2-4-5` has length 3. -/
def edgesDiamondTail : List (Nat × Nat) :=
  [(0, 1), (0, 2), (1, 3), (3, 4), (2, 4), (4, 5)]

/-- All six vertices of the diamond-tail graph selected. -/
def selDiamondTail : List Bool := List.replicate 6 true

/-- Edges of a four-vertex cluster: boundary vertex 0 attached to the
triangle `1-2-3`; the whole cluster is within the collector's reach. -/
def edgesTriTail : List (Nat × Nat) := [(0, 1), (1, 2), (2, 3), (3, 1)]

/-- All four vertices of the triangle-tail cluster selected. -/
def selTriTail : List Bool := List.replicate 4 true

/-- A mesh with a single selected point, which is active. -/
def meshSingle : BMesh := ⟨[(0, 0, 0)], [], [true], some 0⟩

/-! ### Generic list lemmas -/

/-- An invariant preserved by every step of a left fold holds of its result. -/
theorem foldl_pres {α β : Type} (f : β → α → β) (I : β → Prop) :
    ∀ (l : List α) (acc : β), I acc → (∀ b a, a ∈ l → I b → I (f b a)) → I (l.foldl f acc)
  | [], _, h, _ => h
  | a :: l, acc, h, hstep =>
    foldl_pres f I l (f acc a) (hstep acc a (List.mem_cons_self a l) h)
      (fun b x hx hb => hstep b x (List.mem_cons_of_mem a hx) hb)

/-- Two left folds agree when their step functions agree on the members of
the list. -/
theorem foldl_congr_mem {α β : Type} {f g : β → α → β} :
    ∀ (l : List α) (acc : β), (∀ b a, a ∈ l → f b a = g b a) → l.foldl f acc = l.foldl g acc
  | [], _, _ => rfl
  | a :: l, acc, h => by
    simp only [List.foldl_cons, h acc a (List.mem_cons_self a l)]
    exact foldl_congr_mem l _ (fun b x hx => h b x (List.mem_cons_of_mem a hx))

/-! ### Adjacency and selection lemmas -/

theorem selAt_lt {S : List Bool} {v : Nat} (h : selAt S v = true) : v < S.length := by
  by_contra hlt
  rw [selAt, List.getD_eq_default _ _ (Nat.le_of_not_lt hlt)] at h
  exact Bool.false_ne_true h

theorem adj_true_iff {E : List (Nat × Nat)} {a b : Nat} :
    adj E a b = true ↔ ∃ e ∈ E, (e.1 = a ∧ e.2 = b) ∨ (e.1 = b ∧ e.2 = a) := by
  simp [adj, List.any_eq_true, Bool.or_eq_true, Bool.and_eq_true, beq_iff_eq]

theorem adj_comm {E : List (Nat × Nat)} (a b : Nat) : adj E a b = adj E b a := by
  rw [Bool.eq_iff_iff, adj_true_iff, adj_true_iff]
  constructor <;> rintro ⟨e, he, h⟩ <;> exact ⟨e, he, h.symm⟩

theorem nbrs_cons {e : Nat × Nat} {E : List (Nat × Nat)} {v : Nat} :
    nbrs (e :: E) v =
      if e.1 = v then e.2 :: nbrs E v else if e.2 = v then e.1 :: nbrs E v else nbrs E v := rfl

theorem adj_cons {e : Nat × Nat} {E : List (Nat × Nat)} {a b : Nat} :
    adj (e :: E) a b = (((e.1 == a && e.2 == b) || (e.1 == b && e.2 == a)) || adj E a b) := by
  simp [adj, List.any_cons]

theorem adj_of_mem_nbrs {E : List (Nat × Nat)} {v w : Nat} :
    w ∈ nbrs E v → adj E v w = true := by
  induction E with
  | nil => simp [nbrs]
  | cons e E ih =>
    intro h
    rw [nbrs_cons] at h
    rw [adj_cons]
    split_ifs at h with h1 h2
    · rcases List.mem_cons.1 h with h | h
      · simp [h1, h]
      · simp [ih h]
    · rcases List.mem_cons.1 h with h | h
      · simp [h2, h]
      · simp [ih h]
    · simp [ih h]

theorem mem_nbrs_of_adj {E : List (Nat × Nat)} {v w : Nat} :
    adj E v w = true → w ∈ nbrs E v := by
  induction E with
  | nil => simp [adj]
  | cons e E ih =>
    intro h
    rw [adj_cons] at h
    rw [nbrs_cons]
    simp only [Bool.or_eq_true, Bool.and_eq_true, beq_iff_eq] at h
    rcases h with (⟨h1, h2⟩ | ⟨h1, h2⟩) | h
    · rw [if_pos h1]
      exact h2 ▸ List.mem_cons_self e.2 (nbrs E v)
    · by_cases hv : e.1 = v
      · rw [if_pos hv]
        have : w = e.2 := by omega
        exact this ▸ List.mem_cons_self e.2 (nbrs E v)
      · rw [if_neg hv, if_pos h2]
        exact h1 ▸ List.mem_cons_self e.1 (nbrs E v)
    · split_ifs <;> first
        | exact List.mem_cons_of_mem _ (ih h)
        | exact ih h

theorem mem_nbrs_iff {E : List (Nat × Nat)} {v w : Nat} :
    w ∈ nbrs E v ↔ adj E v w = true :=
  ⟨adj_of_mem_nbrs, mem_nbrs_of_adj⟩

/-! ### Lemmas about the linked-vertex traversal -/

theorem lvExpand_zero {E : List (Nat × Nat)} {S : List Bool} {v : Nat} {verts : List Nat} :
    lvExpand E S 0 v verts = verts := rfl

theorem lvExpand_succ {E : List (Nat × Nat)} {S : List Bool} {d v : Nat} {verts : List Nat} :
    lvExpand E S (d + 1) v verts =
      (((nbrs E v).filter (fun u => selAt S u && !(verts.contains u))).dedup).foldl
        (fun acc u => lvExpand E S d u acc)
        (verts ++ ((nbrs E v).filter (fun u => selAt S u && !(verts.contains u))).dedup) := rfl

theorem lvExpand_sub {E : List (Nat × Nat)} {S : List Bool} :
    ∀ (d v : Nat) (verts : List Nat), verts ⊆ lvExpand E S d v verts
  | 0, _, verts => by rw [lvExpand_zero]; exact fun _ h => h
  | d + 1, v, verts => by
    rw [lvExpand_succ]
    exact foldl_pres _ (fun acc => verts ⊆ acc) _ _ (List.subset_append_left _ _)
      (fun b u _ hb => hb.trans (lvExpand_sub d u b))

/-- Every vertex collected by the traversal is the seed, or a selected vertex
reachable from the seed by a path of selected vertices whose length fits the
consumed depth budget. -/
theorem lvExpand_sound {E : List (Nat × Nat)} {S : List Bool} {v0 D : Nat} :
    ∀ (d u : Nat) (verts : List Nat),
      (∃ n, SelPathN E S v0 u n ∧ n + d ≤ D) →
      (∀ x ∈ verts, x = v0 ∨ (selAt S x = true ∧ ∃ n, n ≤ D ∧ SelPathN E S v0 x n)) →
      ∀ x ∈ lvExpand E S d u verts,
        x = v0 ∨ (selAt S x = true ∧ ∃ n, n ≤ D ∧ SelPathN E S v0 x n)
  | 0, _, _, _, hv => by rw [lvExpand_zero]; exact hv
  | d + 1, u, verts, ⟨n, hp, hn⟩, hv => by
    rw [lvExpand_succ]
    have hnews : ∀ w ∈ ((nbrs E u).filter (fun x => selAt S x && !(verts.contains x))).dedup,
        selAt S w = true ∧ SelPathN E S v0 w (n + 1) := by
      intro w hw
      rw [List.mem_dedup, List.mem_filter, Bool.and_eq_true] at hw
      exact ⟨hw.2.1, SelPathN.step hp (adj_of_mem_nbrs hw.1) hw.2.1⟩
    refine foldl_pres _
      (fun acc => ∀ x ∈ acc, x = v0 ∨ (selAt S x = true ∧ ∃ n, n ≤ D ∧ SelPathN E S v0 x n))
      _ _ ?_ ?_
    · intro x hx
      rcases List.mem_append.1 hx with hx | hx
      · exact hv x hx
      · exact Or.inr ⟨(hnews x hx).1, n + 1, by omega, (hnews x hx).2⟩
    · intro b w hw hb
      exact lvExpand_sound d w b ⟨n + 1, (hnews w hw).2, by omega⟩ hb

/-- A selected neighbour of `v` other than `v` itself is always collected by
the traversal when the depth budget is positive. -/
theorem linked_verts_mem_of_adj {E : List (Nat × Nat)} {S : List Bool} {v w d : Nat}
    (hadj : adj E v w = true) (hsel : selAt S w = true) (hne : w ≠ v) :
    w ∈ linked_verts E S v (d + 1) := by
  rw [linked_verts, lvExpand_succ]
  have hw : w ∈ ((nbrs E v).filter (fun u => selAt S u && !(([v] : List Nat).contains u))).dedup := by
    rw [List.mem_dedup, List.mem_filter]
    refine ⟨mem_nbrs_of_adj hadj, ?_⟩
    simp [hsel, hne]
  exact foldl_pres _ (fun acc => w ∈ acc) _ _ (List.mem_append_right _ hw)
    (fun b u _ hb => lvExpand_sub d u b hb)

theorem linked_verts_self_mem {E : List (Nat × Nat)} {S : List Bool} {v d : Nat} :
    v ∈ linked_verts E S v d := by
  cases d with
  | zero => exact List.mem_singleton_self v
  | succ d =>
    rw [linked_verts, lvExpand_succ]
    exact foldl_pres _ (fun acc => v ∈ acc) _ _ (List.mem_append_left _ (List.mem_singleton_self v))
      (fun b u _ hb => lvExpand_sub d u b hb)

/-- Soundness of `linked_verts` in its calling form: everything collected is
the seed or a selected vertex reachable within the depth budget. -/
theorem linked_verts_sound {E : List (Nat × Nat)} {S : List Bool} {v d : Nat} :
    ∀ x ∈ linked_verts E S v d, x = v ∨ (selAt S x = true ∧ ∃ n, n ≤ d ∧ SelPathN E S v x n) := by
  intro x hx
  refine lvExpand_sound d v [v] ⟨0, SelPathN.refl, by omega⟩ ?_ x hx
  intro y hy
  rw [List.mem_singleton] at hy
  exact Or.inl hy

/-! ### Lemmas about selected-path reachability -/

theorem selPathN_mono {E : List (Nat × Nat)} {S S' : List Bool} {v w n : Nat}
    (hle : ∀ y, selAt S' y = true → selAt S y = true) (h : SelPathN E S' v w n) :
    SelPathN E S v w n := by
  induction h with
  | refl => exact SelPathN.refl
  | step _ hadj hsel ih => exact SelPathN.step ih hadj (hle _ hsel)

theorem selPathN_sel {E : List (Nat × Nat)} {S : List Bool} {v w n : Nat}
    (h : SelPathN E S v w n) : w = v ∨ selAt S w = true := by
  cases h with
  | refl => exact Or.inl rfl
  | step _ _ hsel => exact Or.inr hsel

theorem selPathN_front {E : List (Nat × Nat)} {S : List Bool} {x u w n : Nat}
    (hadj : adj E x u = true) (hsel : selAt S u = true) (h : SelPathN E S u w n) :
    SelPathN E S x w (n + 1) := by
  induction h with
  | refl => exact SelPathN.step SelPathN.refl hadj hsel
  | step _ hadj2 hsel2 ih => exact SelPathN.step ih hadj2 hsel2

theorem selPathN_symm {E : List (Nat × Nat)} {S : List Bool} {v w n : Nat}
    (h : SelPathN E S v w n) (hv : selAt S v = true) : SelPathN E S w v n := by
  induction h with
  | refl => exact SelPathN.refl
  | @step u w m hp hadj _ ih =>
    have hadj2 : adj E w u = true := by rw [adj_comm w u]; exact hadj
    rcases selPathN_sel hp with hu | hu
    · exact selPathN_front hadj2 (hu.symm ▸ hv) ih
    · exact selPathN_front hadj2 hu ih

theorem selPathN_trans {E : List (Nat × Nat)} {S : List Bool} {v u w n m : Nat}
    (h1 : SelPathN E S v u n) (h2 : SelPathN E S u w m) : SelPathN E S v w (n + m) := by
  induction h2 with
  | refl => exact h1
  | step _ hadj hsel ih => exact SelPathN.step ih hadj hsel

theorem selPath_trans {E : List (Nat × Nat)} {S : List Bool} {v u w : Nat}
    (h1 : SelPath E S v u) (h2 : SelPath E S u w) : SelPath E S v w := by
  obtain ⟨n, h1⟩ := h1
  obtain ⟨m, h2⟩ := h2
  exact ⟨n + m, selPathN_trans h1 h2⟩

theorem selPath_symm {E : List (Nat × Nat)} {S : List Bool} {v w : Nat}
    (h : SelPath E S v w) (hv : selAt S v = true) : SelPath E S w v := by
  obtain ⟨n, h⟩ := h
  exact ⟨n, selPathN_symm h hv⟩

theorem selPath_mono {E : List (Nat × Nat)} {S S' : List Bool} {v w : Nat}
    (hle : ∀ y, selAt S' y = true → selAt S y = true) (h : SelPath E S' v w) :
    SelPath E S v w := by
  obtain ⟨n, h⟩ := h
  exact ⟨n, selPathN_mono hle h⟩

theorem selPath_sel {E : List (Nat × Nat)} {S : List Bool} {v w : Nat}
    (h : SelPath E S v w) : w = v ∨ selAt S w = true := by
  obtain ⟨n, h⟩ := h
  exact selPathN_sel h

/-- Soundness of `linked_verts` in reachability form: everything collected is
the seed or a selected vertex of the seed's cluster. -/
theorem linked_verts_sound_path {E : List (Nat × Nat)} {S : List Bool} {v d : Nat} :
    ∀ x ∈ linked_verts E S v d, x = v ∨ (selAt S x = true ∧ SelPath E S v x) := by
  intro x hx
  rcases linked_verts_sound x hx with h | ⟨hs, n, _, hp⟩
  · exact Or.inl h
  · exact Or.inr ⟨hs, n, hp⟩

/-- The traversal reads selection flags only on the seed's cluster: two flag
states that agree on the cluster of `v0` (the second deselecting at most what
the first selects) produce identical traversals from any cluster member. -/
theorem lvExpand_congr {E : List (Nat × Nat)} {S S' : List Bool} {v0 : Nat}
    (hle : ∀ y, selAt S' y = true → selAt S y = true)
    (hag : ∀ y, SelPath E S v0 y → selAt S y = selAt S' y) :
    ∀ (d u : Nat) (verts : List Nat), SelPath E S v0 u →
      lvExpand E S' d u verts = lvExpand E S d u verts
  | 0, _, _, _ => rfl
  | d + 1, u, verts, hu => by
    rw [lvExpand_succ, lvExpand_succ]
    have hfilter : (nbrs E u).filter (fun x => selAt S' x && !(verts.contains x))
        = (nbrs E u).filter (fun x => selAt S x && !(verts.contains x)) := by
      apply List.filter_congr
      intro x hx
      have hadj := adj_of_mem_nbrs hx
      by_cases hsx : selAt S x = true
      · have hpath : SelPath E S v0 x :=
          selPath_trans hu ⟨1, SelPathN.step SelPathN.refl hadj hsx⟩
        rw [← hag x hpath]
      · have hsx' : selAt S' x = false := by
          cases h : selAt S' x
          · rfl
          · exact absurd (hle x h) hsx
        rw [Bool.not_eq_true] at hsx
        rw [hsx, hsx']
    rw [hfilter]
    apply foldl_congr_mem
    intro b w hw
    rw [List.mem_dedup, List.mem_filter, Bool.and_eq_true] at hw
    exact lvExpand_congr hle hag d w b
      (selPath_trans hu ⟨1, SelPathN.step SelPathN.refl (adj_of_mem_nbrs hw.1) hw.2.1⟩)

theorem linked_verts_congr {E : List (Nat × Nat)} {S S' : List Bool} {v0 : Nat}
    (hle : ∀ y, selAt S' y = true → selAt S y = true)
    (hag : ∀ y, SelPath E S v0 y → selAt S y = selAt S' y) (v d : Nat)
    (hv : SelPath E S v0 v) : linked_verts E S' v d = linked_verts E S v d := by
  rw [linked_verts, linked_verts]
  exact lvExpand_congr hle hag d v [v] hv

/-! ### Lemmas about the nearest-point query and the while-loop -/

theorem contains_iff {l : List Nat} {a : Nat} : l.contains a = true ↔ a ∈ l := by
  simp [List.contains, List.elem_iff]

theorem contains_false_iff {l : List Nat} {a : Nat} : l.contains a = false ↔ a ∉ l := by
  rw [← contains_iff]
  cases h : l.contains a <;> simp

/-- A successful query result always passes the filter `flt`: it is not in the
loop and still in the live candidate list. -/
theorem kdFind_some {coords : List (Int × Int × Int)} {kdpts : List Nat} {q : Int × Int × Int}
    {loop cand : List Nat} {i : Nat} (h : kdFind coords kdpts q loop cand = some i) :
    i ∉ loop ∧ i ∈ cand := by
  rw [kdFind] at h
  refine foldl_pres _ (fun best => ∀ j, best = some j → j ∉ loop ∧ j ∈ cand)
    kdpts none (fun j hj => by cases hj) ?_ i h
  intro b x hx hb j hj
  by_cases hc : (!(loop.contains x) && cand.contains x) = true
  · rw [if_pos hc] at hj
    rw [Bool.and_eq_true, Bool.not_eq_true'] at hc
    have hcx : x ∉ loop ∧ x ∈ cand :=
      ⟨contains_false_iff.1 hc.1, contains_iff.1 hc.2⟩
    cases b with
    | none =>
      injection hj with hj
      exact hj ▸ hcx
    | some b2 =>
      dsimp only at hj
      by_cases hd : dist2 (coords.getD x (0, 0, 0)) q < dist2 (coords.getD b2 (0, 0, 0)) q
      · rw [if_pos hd] at hj
        injection hj with hj
        exact hj ▸ hcx
      · rw [if_neg hd] at hj
        exact hb j hj
  · rw [if_neg hc] at hj
    exact hb j hj

theorem build_unfold {E : List (Nat × Nat)} {S : List Bool} {coords : List (Int × Int × Int)}
    {kdpts : List Nat} {l : Nat} {loop cand : List Nat} {cur i : Nat} :
    build E S coords kdpts l loop cand cur i =
      (match (kdFind coords kdpts (coords.getD cur (0, 0, 0)) loop
          (cand.filter
            (fun u => !((linked_verts E S cur linked_verts_recursive_deep).contains u)))).bind
          (fun idx => if idx = 0 then none else some idx) with
      | some nv =>
        if i + 1 > l then (loop ++ [nv], i + 1)
        else build E S coords kdpts l (loop ++ [nv])
          ((cand.filter
            (fun u => !((linked_verts E S cur linked_verts_recursive_deep).contains u))).erase nv)
          nv (i + 1)
      | none => (loop, i + 1)) := by
  show buildGo E S coords kdpts l (l - i) loop cand cur i = _
  conv_lhs => rw [buildGo]
  cases hmatch : (kdFind coords kdpts (coords.getD cur (0, 0, 0)) loop
      (cand.filter
        (fun u => !((linked_verts E S cur linked_verts_recursive_deep).contains u)))).bind
      (fun idx => if idx = 0 then none else some idx) with
  | none => rfl
  | some nv =>
    dsimp only
    by_cases hgt : i + 1 > l
    · rw [if_pos hgt, if_pos hgt]
    · rw [if_neg hgt, if_neg hgt]
      have hfi : l - i = (l - (i + 1)) + 1 := by omega
      rw [hfi]
      rfl

/-- Every run of the while-loop extends the loop by a sequence of vertices
obeying the candidate-set discipline recorded by `Extends`. -/
theorem build_ext {E : List (Nat × Nat)} {S : List Bool} {coords : List (Int × Int × Int)}
    {kdpts : List Nat} :
    ∀ (k l : Nat) (loop cand : List Nat) (cur i : Nat), l + 1 - i ≤ k →
      ∃ ext, (build E S coords kdpts l loop cand cur i).1 = loop ++ ext ∧
        Extends E S loop cand cur ext := by
  intro k
  induction k with
  | zero =>
    intro l loop cand cur i hk
    rw [build_unfold]
    cases hmatch : (kdFind coords kdpts (coords.getD cur (0, 0, 0)) loop
        (cand.filter
          (fun u => !((linked_verts E S cur linked_verts_recursive_deep).contains u)))).bind
        (fun idx => if idx = 0 then none else some idx) with
    | none => exact ⟨[], by simp, Extends.nil⟩
    | some nv =>
      obtain ⟨idx, hfind, hif⟩ := Option.bind_eq_some.1 hmatch
      by_cases h0 : idx = 0
      · rw [if_pos h0] at hif
        cases hif
      · rw [if_neg h0] at hif
        injection hif with hif
        subst hif
        have hmem := kdFind_some hfind
        have hgt : i + 1 > l := by omega
        dsimp only
        rw [if_pos hgt]
        exact ⟨[idx], rfl, Extends.cons hmem.2 hmem.1 Extends.nil⟩
  | succ k ih =>
    intro l loop cand cur i hk
    rw [build_unfold]
    cases hmatch : (kdFind coords kdpts (coords.getD cur (0, 0, 0)) loop
        (cand.filter
          (fun u => !((linked_verts E S cur linked_verts_recursive_deep).contains u)))).bind
        (fun idx => if idx = 0 then none else some idx) with
    | none => exact ⟨[], by simp, Extends.nil⟩
    | some nv =>
      obtain ⟨idx, hfind, hif⟩ := Option.bind_eq_some.1 hmatch
      by_cases h0 : idx = 0
      · rw [if_pos h0] at hif
        cases hif
      · rw [if_neg h0] at hif
        injection hif with hif
        subst hif
        have hmem := kdFind_some hfind
        dsimp only
        by_cases hgt : i + 1 > l
        · rw [if_pos hgt]
          exact ⟨[idx], rfl, Extends.cons hmem.2 hmem.1 Extends.nil⟩
        · rw [if_neg hgt]
          obtain ⟨ext, hext, hE⟩ := ih l (loop ++ [idx])
            ((cand.filter
              (fun u => !((linked_verts E S cur linked_verts_recursive_deep).contains u))).erase idx)
            idx (i + 1) (by omega)
          exact ⟨idx :: ext, by rw [hext]; simp, Extends.cons hmem.2 hmem.1 hE⟩

/-- The final value of the step counter `_i` never exceeds `_l + 1`: the
overflow guard caps the number of executions of the loop body. -/
theorem build_iters {E : List (Nat × Nat)} {S : List Bool} {coords : List (Int × Int × Int)}
    {kdpts : List Nat} :
    ∀ (k l : Nat) (loop cand : List Nat) (cur i : Nat), l + 1 - i ≤ k → i ≤ l →
      (build E S coords kdpts l loop cand cur i).2 ≤ l + 1 := by
  intro k
  induction k with
  | zero =>
    intro l loop cand cur i hk hi
    omega
  | succ k ih =>
    intro l loop cand cur i hk hi
    rw [build_unfold]
    cases hmatch : (kdFind coords kdpts (coords.getD cur (0, 0, 0)) loop
        (cand.filter
          (fun u => !((linked_verts E S cur linked_verts_recursive_deep).contains u)))).bind
        (fun idx => if idx = 0 then none else some idx) with
    | none => dsimp only; omega
    | some nv =>
      dsimp only
      by_cases hgt2 : i + 1 > l
      · rw [if_pos hgt2]
        dsimp only
        omega
      · rw [if_neg hgt2]
        exact ih l (loop ++ [nv])
          ((cand.filter
            (fun u => !((linked_verts E S cur linked_verts_recursive_deep).contains u))).erase nv)
          nv (i + 1) (by omega) (by omega)

/-! ### Consequences of the candidate-set discipline -/

theorem extends_mem {E : List (Nat × Nat)} {S : List Bool} {loop cand : List Nat} {cur : Nat}
    {ext : List Nat} (h : Extends E S loop cand cur ext) : ∀ x ∈ ext, x ∈ cand := by
  induction h with
  | nil => simp
  | cons hmem _ _ ih =>
    intro x hx
    rcases List.mem_cons.1 hx with hx | hx
    · exact hx ▸ (List.mem_filter.1 hmem).1
    · exact List.mem_of_mem_filter (List.mem_of_mem_erase (ih x hx))

theorem extends_not_mem_loop {E : List (Nat × Nat)} {S : List Bool} {loop cand : List Nat}
    {cur : Nat} {ext : List Nat} (h : Extends E S loop cand cur ext) : ∀ x ∈ ext, x ∉ loop := by
  induction h with
  | nil => simp
  | cons _ hnl _ ih =>
    intro x hx
    rcases List.mem_cons.1 hx with hx | hx
    · exact hx ▸ hnl
    · exact fun hxl => ih x hx (List.mem_append_left _ hxl)

theorem extends_nodup {E : List (Nat × Nat)} {S : List Bool} {loop cand : List Nat} {cur : Nat}
    {ext : List Nat} (h : Extends E S loop cand cur ext) :
    loop.Nodup → (loop ++ ext).Nodup := by
  induction h with
  | nil => intro hl; simpa
  | @cons loop cand cur nv ext hmem hnl _ ih =>
    intro hl
    have h2 : (loop ++ [nv]).Nodup := by
      rw [List.nodup_append]
      exact ⟨hl, List.nodup_singleton nv,
        fun a ha hb => hnl ((List.mem_singleton.1 hb) ▸ ha)⟩
    simpa [List.append_assoc] using ih h2

/-- No vertex of the extension is mesh-adjacent to the tip it was appended
after, nor to any later tip: the walk never uses a pre-existing mesh edge
between consecutive (in fact any) of its vertices. -/
theorem extends_not_adj {E : List (Nat × Nat)} {S : List Bool} {loop cand : List Nat} {cur : Nat}
    {ext : List Nat} (h : Extends E S loop cand cur ext) :
    (∀ x ∈ cand, selAt S x = true) → cur ∈ loop →
    List.Pairwise (fun a b => adj E a b = false) (cur :: ext) := by
  induction h with
  | nil => intro _ _; exact List.pairwise_singleton _ _
  | @cons loop cand cur nv ext hmem hnl hrec ih =>
    intro hsel hcur
    have hsel2 : ∀ x ∈ (cand.filter
        (fun u => !((linked_verts E S cur linked_verts_recursive_deep).contains u))).erase nv,
        selAt S x = true :=
      fun x hx => hsel x (List.mem_of_mem_filter (List.mem_of_mem_erase hx))
    have htail := ih hsel2 (List.mem_append_right _ (List.mem_singleton_self nv))
    refine List.Pairwise.cons ?_ htail
    intro z hz
    have hzf : z ∈ cand.filter
        (fun u => !((linked_verts E S cur linked_verts_recursive_deep).contains u)) := by
      rcases List.mem_cons.1 hz with hz | hz
      · exact hz ▸ hmem
      · exact List.mem_of_mem_erase (extends_mem hrec z hz)
    have hzsel : selAt S z = true := hsel z (List.mem_of_mem_filter hzf)
    have hznot : z ∉ linked_verts E S cur linked_verts_recursive_deep := by
      have hc := (List.mem_filter.1 hzf).2
      rw [Bool.not_eq_true'] at hc
      exact contains_false_iff.1 hc
    have hzne : z ≠ cur := by
      intro hzc
      rcases List.mem_cons.1 hz with hz | hz
      · subst hz
        exact hnl (hzc.symm ▸ hcur)
      · exact (extends_not_mem_loop hrec z hz) (List.mem_append_left _ (hzc.symm ▸ hcur))
    cases hadj : adj E cur z
    · rfl
    · have h10 : linked_verts_recursive_deep = 9 + 1 := rfl
      rw [h10] at hznot
      exact absurd (linked_verts_mem_of_adj hadj hzsel hzne) hznot

theorem pairwise_adj_false {E : List (Nat × Nat)} :
    ∀ {l : List Nat}, List.Pairwise (fun a b => adj E a b = false) l →
      ∀ a ∈ l, ∀ b ∈ l, a ≠ b → adj E a b = false := by
  intro l h
  induction l with
  | nil => simp
  | cons x l ih =>
    rcases List.pairwise_cons.1 h with ⟨hx, hl⟩
    intro a ha b hb hab
    rcases List.mem_cons.1 ha with ha | ha <;> rcases List.mem_cons.1 hb with hb | hb
    · exact absurd (ha.trans hb.symm) hab
    · exact ha ▸ hx b hb
    · rw [hb, adj_comm]
      exact hx a ha
    · exact ih hl a ha b hb hab

/-! ### The chunking stage -/

theorem pyRange_one (L : Nat) : pyRange L 1 = List.range L := by
  simp [pyRange]

/-- With window 2 and offset 1, the chunks that survive the size-2 filter are
exactly the adjacent pairs of the list, in order. -/
theorem chunksPairs : ∀ lp : List Nat,
    (chunks lp 2 1).filter (fun c => c.length == 2) =
      (lp.zip lp.tail).map (fun p => [p.1, p.2])
  | [] => by simp [chunks, pyRange_one]
  | [a] => by simp [chunks, pyRange_one, List.range_succ]
  | a :: b :: t => by
    have ih := chunksPairs (b :: t)
    simp only [chunks, List.length_cons] at ih ⊢
    rw [show (2 : Nat) - 1 = 1 from rfl, pyRange_one] at ih
    rw [show (2 : Nat) - 1 = 1 from rfl, pyRange_one]
    rw [List.range_succ_eq_map]
    simp only [List.map_cons, List.map_map, Function.comp_def, List.drop_succ_cons,
      List.drop_zero, List.take_zero, List.take_succ_cons]
    rw [List.filter_cons]
    simp only [ih]
    simp [List.zip_cons_cons]

theorem adj_append_single {es : List (Nat × Nat)} {x y a b : Nat} :
    adj (es ++ [(x, y)]) a b =
      (adj es a b || ((x == a && y == b) || (x == b && y == a))) := by
  simp [adj, List.any_append]

/-- Emission succeeds on any loop with pairwise-distinct vertices none of
whose pairs is already joined by a mesh edge, and appends exactly the
consecutive pairs. -/
theorem emit_ok : ∀ (lp : List Nat) (es0 : List (Nat × Nat)), lp.Nodup →
    (∀ a ∈ lp, ∀ b ∈ lp, a ≠ b → adj es0 a b = false) →
    ((chunks lp 2 1).filter (fun c => c.length == 2)).foldlM emitChunk es0 =
      .ok (es0 ++ (lp.zip lp.tail))
  | [], es0, _, _ => by simp [chunksPairs]; rfl
  | [a], es0, _, _ => by simp [chunksPairs]; rfl
  | a :: b :: t, es0, hnd, hadj => by
    rw [chunksPairs]
    have hab : a ≠ b := by
      intro h
      exact (List.nodup_cons.1 hnd).1 (h ▸ List.mem_cons_self b t)
    have hmema : ∀ z ∈ b :: t, a ≠ z := by
      intro z hz h
      exact (List.nodup_cons.1 hnd).1 (h ▸ hz)
    have hadjab : adj es0 a b = false :=
      hadj a (List.mem_cons_self _ _) b (List.mem_cons_of_mem _ (List.mem_cons_self _ _)) hab
    have step1 : emitChunk es0 [a, b] = .ok (es0 ++ [(a, b)]) := by
      simp [emitChunk, connect_vert_pair, edgesNew, hab, hadjab]
    have hnd2 : (b :: t).Nodup := (List.nodup_cons.1 hnd).2
    have hadj2 : ∀ p ∈ b :: t, ∀ q ∈ b :: t, p ≠ q → adj (es0 ++ [(a, b)]) p q = false := by
      intro p hp q hq hpq
      rw [adj_append_single]
      have h1 : adj es0 p q = false :=
        hadj p (List.mem_cons_of_mem _ hp) q (List.mem_cons_of_mem _ hq) hpq
      have h2 : a ≠ p := hmema p hp
      have h3 : a ≠ q := hmema q hq
      simp [h1]
      exact ⟨fun h => absurd h h2, fun h => absurd h h3⟩
    have ih := emit_ok (b :: t) (es0 ++ [(a, b)]) hnd2 hadj2
    rw [chunksPairs] at ih
    simp only [List.zip_cons_cons, List.tail_cons, List.map_cons, List.foldlM_cons, step1]
    simp only [List.tail_cons] at ih
    rw [show (do
        let init ← Except.ok (es0 ++ [(a, b)])
        List.foldlM emitChunk init (List.map (fun p => [p.1, p.2]) ((b :: t).zip t))) =
      List.foldlM emitChunk (es0 ++ [(a, b)]) (List.map (fun p => [p.1, p.2]) ((b :: t).zip t))
      from rfl, ih]
    simp

/-! ### Lemmas about the boundary-priority pass -/

theorem selAt_set_false {S : List Bool} : ∀ {x : Nat}, selAt (S.set x false) x = false := by
  induction S with
  | nil => intro x; rfl
  | cons s S ih =>
    intro x
    cases x with
    | zero => rfl
    | succ x =>
      rw [List.set_cons_succ]
      show selAt (S.set x false) x = false
      exact ih

theorem selAt_set_ne {S : List Bool} : ∀ {x y : Nat}, y ≠ x → selAt (S.set x false) y = selAt S y := by
  induction S with
  | nil => intro x y _; rfl
  | cons s S ih =>
    intro x y h
    cases x with
    | zero =>
      cases y with
      | zero => exact absurd rfl h
      | succ y => rfl
    | succ x =>
      cases y with
      | zero => rfl
      | succ y =>
        rw [List.set_cons_succ]
        show selAt (S.set x false) y = selAt S y
        exact ih (fun hh => h (by rw [hh]))

theorem selAt_deselect_not_mem {l : List Nat} : ∀ {S : List Bool} {x : Nat}, x ∉ l →
    selAt (deselect S l) x = selAt S x := by
  induction l with
  | nil => intro S x _; rfl
  | cons u l ih =>
    intro S x hx
    show selAt (deselect (S.set u false) l) x = selAt S x
    rw [ih (fun h => hx (List.mem_cons_of_mem _ h)),
      selAt_set_ne (fun h => hx (by rw [h]; exact List.mem_cons_self u l))]

theorem selAt_deselect_mem {l : List Nat} : ∀ {S : List Bool} {x : Nat}, x ∈ l →
    selAt (deselect S l) x = false := by
  induction l with
  | nil => intro S x hx; cases hx
  | cons u l ih =>
    intro S x hx
    show selAt (deselect (S.set u false) l) x = false
    by_cases hm : x ∈ l
    · exact ih hm
    · have hxu : x = u := by
        rcases List.mem_cons.1 hx with h | h
        · exact h
        · exact absurd h hm
      rw [selAt_deselect_not_mem hm, hxu]
      exact selAt_set_false

/-- A pruning step triggered by a vertex outside the cluster of `v` (or not
triggered at all) never touches the flags of that cluster and only ever
deselects. -/
theorem pruneStep_out {E : List (Nat × Nat)} {S0 S : List Bool} {v u : Nat}
    (hS : ∀ x, selAt S x = true → selAt S0 x = true)
    (hu : ¬ SelPath E S0 v u) :
    (∀ x, selAt (pruneStep E S u) x = true → selAt S0 x = true) ∧
    (∀ x, SelPath E S0 v x → selAt (pruneStep E S u) x = selAt S x) := by
  rw [pruneStep]
  by_cases hcond : (selAt S u && (degree E u == 1)) = true
  · rw [if_pos hcond]
    have hcond2 : selAt S u = true ∧ (degree E u == 1) = true := by simpa using hcond
    have hselu : selAt S u = true := hcond2.1
    have hD : ∀ x ∈ (linked_verts E S u linked_verts_recursive_deep).filter (fun w => w != u),
        ¬ SelPath E S0 v x := by
      intro x hx hpath
      rw [List.mem_filter] at hx
      have hxu : x ≠ u := by simpa using hx.2
      rcases linked_verts_sound_path x hx.1 with heq | ⟨_, hpx⟩
      · exact hxu heq
      · have hpx0 : SelPath E S0 u x := selPath_mono hS hpx
        have hxu0 : SelPath E S0 x u := selPath_symm hpx0 (hS u hselu)
        exact hu (selPath_trans hpath hxu0)
    constructor
    · intro x hx
      by_cases hmem : x ∈ (linked_verts E S u linked_verts_recursive_deep).filter (fun w => w != u)
      · rw [selAt_deselect_mem hmem] at hx
        cases hx
      · rw [selAt_deselect_not_mem hmem] at hx
        exact hS x hx
    · intro x hpath
      exact selAt_deselect_not_mem (fun hmem => hD x hmem hpath)
  · rw [if_neg hcond]
    exact ⟨hS, fun _ _ => rfl⟩

/-- The pruning step at the boundary vertex `v` itself: provided the whole
cluster is within the collector's reach, it deselects exactly the cluster
minus `v`. -/
theorem pruneStep_at_v {E : List (Nat × Nat)} {S0 S : List Bool} {v : Nat}
    (hv : selAt S0 v = true) (hdeg : degree E v = 1)
    (hreach : ∀ w, SelPath E S0 v w → w ∈ linked_verts E S0 v linked_verts_recursive_deep)
    (hS : ∀ x, selAt S x = true → selAt S0 x = true)
    (hb : ∀ x, SelPath E S0 v x → selAt S x = selAt S0 x) :
    (∀ x, selAt (pruneStep E S v) x = true → selAt S0 x = true) ∧
    (∀ x, SelPath E S0 v x → (selAt (pruneStep E S v) x = true ↔ x = v)) := by
  have hrefl : SelPath E S0 v v := ⟨0, SelPathN.refl⟩
  have hselv : selAt S v = true := by rw [hb v hrefl]; exact hv
  have hlv : linked_verts E S v linked_verts_recursive_deep
      = linked_verts E S0 v linked_verts_recursive_deep :=
    linked_verts_congr hS (fun y hy => (hb y hy).symm) v _ hrefl
  rw [pruneStep, if_pos (by rw [hselv, hdeg]; rfl), hlv]
  constructor
  · intro x hx
    by_cases hmem : x ∈ (linked_verts E S0 v linked_verts_recursive_deep).filter (fun w => w != v)
    · rw [selAt_deselect_mem hmem] at hx
      cases hx
    · rw [selAt_deselect_not_mem hmem] at hx
      exact hS x hx
  · intro x hpath
    by_cases hxv : x = v
    · subst hxv
      have hvnot : x ∉ (linked_verts E S0 x linked_verts_recursive_deep).filter
          (fun w => w != x) := by
        intro hmem
        rw [List.mem_filter] at hmem
        simp at hmem
      rw [selAt_deselect_not_mem hvnot, hselv]
      simp
    · have hmem : x ∈ (linked_verts E S0 v linked_verts_recursive_deep).filter
          (fun w => w != v) :=
        List.mem_filter.2 ⟨hreach x hpath, by simpa using hxv⟩
      rw [selAt_deselect_mem hmem]
      simp [hxv]

/-- Before `v` is processed, a step at any other vertex leaves the cluster of
`v` entirely selected. -/
theorem pruneStep_pre {E : List (Nat × Nat)} {S0 S : List Bool} {v u : Nat}
    (huniq : ∀ w, SelPath E S0 v w → degree E w = 1 → w = v) (hne : u ≠ v)
    (hS : ∀ x, selAt S x = true → selAt S0 x = true) :
    (∀ x, selAt (pruneStep E S u) x = true → selAt S0 x = true) ∧
    (∀ x, SelPath E S0 v x → selAt (pruneStep E S u) x = selAt S x) := by
  by_cases hu : SelPath E S0 v u
  · by_cases hcond : (selAt S u && (degree E u == 1)) = true
    · exfalso
      have h2 : degree E u = 1 := by
        have hcond2 : selAt S u = true ∧ (degree E u == 1) = true := by simpa using hcond
        simpa using hcond2.2
      exact hne (huniq u hu h2)
    · rw [pruneStep, if_neg hcond]
      exact ⟨hS, fun _ _ => rfl⟩
  · exact pruneStep_out hS hu

/-- After `v` has been processed, any further step leaves the cluster with
exactly `v` selected. -/
theorem pruneStep_post {E : List (Nat × Nat)} {S0 S : List Bool} {v u : Nat} (hne : u ≠ v)
    (hS : ∀ x, selAt S x = true → selAt S0 x = true)
    (hc : ∀ x, SelPath E S0 v x → (selAt S x = true ↔ x = v)) :
    (∀ x, selAt (pruneStep E S u) x = true → selAt S0 x = true) ∧
    (∀ x, SelPath E S0 v x → (selAt (pruneStep E S u) x = true ↔ x = v)) := by
  by_cases hu : SelPath E S0 v u
  · have hfalse : selAt S u = false := by
      cases h : selAt S u
      · rfl
      · exact absurd ((hc u hu).1 h) hne
    rw [pruneStep, if_neg (by simp [hfalse])]
    exact ⟨hS, hc⟩
  · obtain ⟨ha, hb2⟩ := pruneStep_out hS hu
    exact ⟨ha, fun x hx => by rw [hb2 x hx]; exact hc x hx⟩

theorem prune_fold_pre {E : List (Nat × Nat)} {S0 : List Bool} {v : Nat}
    (huniq : ∀ w, SelPath E S0 v w → degree E w = 1 → w = v) :
    ∀ (L : List Nat) (S : List Bool), v ∉ L →
      (∀ x, selAt S x = true → selAt S0 x = true) →
      (∀ x, SelPath E S0 v x → selAt S x = selAt S0 x) →
      (∀ x, selAt (L.foldl (pruneStep E) S) x = true → selAt S0 x = true) ∧
      (∀ x, SelPath E S0 v x → selAt (L.foldl (pruneStep E) S) x = selAt S0 x)
  | [], S, _, hS, hb => ⟨hS, hb⟩
  | u :: L, S, hv, hS, hb => by
    have hne : u ≠ v := fun h => hv (h ▸ List.mem_cons_self u L)
    obtain ⟨ha1, hb1⟩ := pruneStep_pre huniq hne hS
    exact prune_fold_pre huniq L (pruneStep E S u) (fun h => hv (List.mem_cons_of_mem _ h)) ha1
      (fun x hx => by rw [hb1 x hx]; exact hb x hx)

theorem prune_fold_post {E : List (Nat × Nat)} {S0 : List Bool} {v : Nat} :
    ∀ (L : List Nat) (S : List Bool), v ∉ L →
      (∀ x, selAt S x = true → selAt S0 x = true) →
      (∀ x, SelPath E S0 v x → (selAt S x = true ↔ x = v)) →
      (∀ x, SelPath E S0 v x → (selAt (L.foldl (pruneStep E) S) x = true ↔ x = v))
  | [], _, _, _, hc => hc
  | u :: L, S, hv, hS, hc => by
    have hne : u ≠ v := fun h => hv (h ▸ List.mem_cons_self u L)
    obtain ⟨ha1, hc1⟩ := pruneStep_post hne hS hc
    exact prune_fold_post L (pruneStep E S u) (fun h => hv (List.mem_cons_of_mem _ h)) ha1 hc1

/-- Splitting the vertex enumeration of the pruning pass around the vertex
`v`. -/
theorem range_split {v n : Nat} (h : v < n) :
    List.range n = List.range v ++ v :: List.range' (v + 1) (n - v - 1) := by
  rw [List.range_eq_range' n, List.range_eq_range' v]
  have h1 := List.range'_append 0 v (n - v) 1
  simp only [Nat.zero_add, Nat.one_mul] at h1
  have h2 : n - v + v = n := by omega
  rw [h2] at h1
  rw [← h1]
  have h3 : n - v = (n - v - 1) + 1 := by omega
  rw [h3, List.range'_succ v (n - v - 1) 1]
  have h4 : n - v - 1 + 1 - 1 = n - v - 1 := by omega
  rw [h4]

/-- Conditional cluster-collapse property of the pruning pass: if `v` is a
selected boundary vertex, the only boundary vertex of its cluster, and the
whole cluster lies within the depth-10 reach of the collector from `v`, then
after the pass a cluster vertex is selected exactly when it is `v`. -/
theorem prune_cluster {E : List (Nat × Nat)} {n : Nat} {S0 : List Bool} {v : Nat}
    (hv : selAt S0 v = true) (hdeg : degree E v = 1)
    (huniq : ∀ w, SelPath E S0 v w → degree E w = 1 → w = v)
    (hreach : ∀ w, SelPath E S0 v w → w ∈ linked_verts E S0 v linked_verts_recursive_deep)
    (hn : S0.length ≤ n) :
    ∀ w, SelPath E S0 v w → (selAt (prune E n S0) w = true ↔ w = v) := by
  have hvn : v < n := Nat.lt_of_lt_of_le (selAt_lt hv) hn
  rw [prune, range_split hvn, List.foldl_append, List.foldl_cons]
  obtain ⟨ha1, hb1⟩ := prune_fold_pre huniq (List.range v) S0 (by simp)
    (fun _ h => h) (fun _ _ => rfl)
  obtain ⟨ha2, hc2⟩ := pruneStep_at_v hv hdeg hreach ha1 hb1
  refine prune_fold_post (List.range' (v + 1) (n - v - 1)) _ ?_ ha2 hc2
  intro hmem
  obtain ⟨i, _, hi⟩ := List.mem_range'.1 hmem
  omega

/-! ### Lemmas about the entry point -/

theorem selVerts_sel {m : BMesh} {bp : Bool} {x : Nat} (h : x ∈ selVerts m bp) :
    selAt (prunedSel m bp) x = true := by
  rw [selVerts] at h
  exact (List.mem_filter.1 h).2

theorem kdFind_cand_nil {coords : List (Int × Int × Int)} {kdpts : List Nat}
    {q : Int × Int × Int} {loop : List Nat} : kdFind coords kdpts q loop [] = none := by
  rw [kdFind]
  refine foldl_pres _ (fun b => b = none) kdpts none rfl ?_
  intro b x _ hb
  subst hb
  rw [if_neg]
  simp [List.contains]

theorem list_len_lt_two {l : List Nat} {a : Nat} (h : l.length < 2) (ha : a ∈ l) : l = [a] := by
  cases l with
  | nil => cases ha
  | cons x t =>
    cases t with
    | nil =>
      rw [List.mem_singleton] at ha
      rw [ha]
    | cons y t2 =>
      exfalso
      simp only [List.length_cons] at h
      omega

theorem builtLoop_some {m : BMesh} {bp : Bool} {a : Nat} (ha : m.active = some a)
    (hmem : a ∈ selVerts m bp) :
    builtLoop m bp = (build m.edges (prunedSel m bp) m.coords (selVerts m bp)
      (candInit m bp).length [a] (candInit m bp) a 0).1 := by
  simp only [builtLoop, ha, if_pos hmem]

theorem connect_loop_some {m : BMesh} {bp : Bool} {a : Nat} (ha : m.active = some a)
    (hmem : a ∈ selVerts m bp) :
    connect_loop m bp =
      match ((chunks (builtLoop m bp) 2 1).filter (fun c => c.length == 2)).foldlM
          emitChunk m.edges with
      | .ok es => .ok { m with sel := prunedSel m bp, edges := es }
      | .error e => .error e := by
  simp only [connect_loop, ha]
  rw [if_pos hmem]

/-! ### Claim theorems -/

/-- C1: evaluation of the code at the failing input.  On `meshIndexZero`
(active vertex 1, nearest eligible candidate has index 0) the nearest-point
query of the first EXTENDING step returns vertex 0, yet the built Loop stays
`[1]` and no edge is created: the `bm.verts[index] if index else None`
truthiness test of line 92 discards the returned result because its index is
the integer 0, and the builder stops as if no result existed — contradicting
the claim (and spec) that an existing query result is always appended. -/
theorem kd_result_index_zero_discarded :
    kdFind meshIndexZero.coords [0, 1, 2] (0, 0, 0) [1] [0, 2] = some 0 ∧
    builtLoop meshIndexZero false = [1] ∧
    connect_loop meshIndexZero false = .ok meshIndexZero :=
  ⟨rfl, rfl, rfl⟩

/-- C2, counterexample: a properly formed input (two selected vertices joined
by an edge, the active vertex a member of the selection) on which
`connect_loop` with `boundary_priority = true` raises: pruning from boundary
vertex 0 deselects the active vertex 1, so `selected_vertices.remove(active)`
raises `ValueError` across the module boundary. -/
theorem connect_loop_valueerror_on_pruned_active :
    meshChain2.active = some 1 ∧ selAt meshChain2.sel 1 = true ∧
    connect_loop meshChain2 true = .error "ValueError: list.remove(x): x not in list" :=
  ⟨rfl, rfl, rfl⟩

/-- C2, amended: `connect_loop` raises no exception provided the active
vertex (when there is one) is still in the post-pruning selection — in
particular always when `boundary_priority = false` and the active vertex is
selected; the run returns a mesh. -/
theorem connect_loop_ok_of_active_survives : ∀ (m : BMesh) (bp : Bool),
    (∀ a, m.active = some a → a ∈ selVerts m bp) →
    ∃ m2, connect_loop m bp = .ok m2 := by
  intro m bp hact
  cases ha : m.active with
  | none => exact ⟨{ m with sel := prunedSel m bp }, by simp only [connect_loop, ha]⟩
  | some a =>
    have hmem := hact a ha
    obtain ⟨ext, hext, hE⟩ := build_ext ((candInit m bp).length + 1) (candInit m bp).length
      [a] (candInit m bp) a 0 (by omega)
    have hloop : builtLoop m bp = [a] ++ ext := by rw [builtLoop_some ha hmem, hext]
    have hselc : ∀ x ∈ candInit m bp, selAt (prunedSel m bp) x = true := by
      intro x hx
      rw [candInit, ha] at hx
      exact selVerts_sel (List.mem_of_mem_erase hx)
    have hnd : (builtLoop m bp).Nodup := by
      rw [hloop]
      exact extends_nodup hE (List.nodup_singleton a)
    have hpw := extends_not_adj hE hselc (List.mem_singleton_self a)
    have hpw2 : ∀ p ∈ builtLoop m bp, ∀ q ∈ builtLoop m bp, p ≠ q →
        adj m.edges p q = false := by
      rw [hloop]
      exact pairwise_adj_false hpw
    rw [connect_loop_some ha hmem, emit_ok (builtLoop m bp) m.edges hnd hpw2]
    exact ⟨_, rfl⟩

/-- C2, witness: the amended theorem applied to the two-point chain with
`boundary_priority = false`, where the active vertex survives. -/
theorem connect_loop_ok_of_active_survives_witness :
    ∃ m2, connect_loop meshChain2 false = .ok m2 :=
  connect_loop_ok_of_active_survives meshChain2 false
    (by
      intro a ha
      have h1 : a = 1 := by simpa [meshChain2] using ha.symm
      subst h1
      decide)

/-- C3: for every run that actually builds a loop (an active vertex that is
in the post-pruning selection), the built Loop starts at the seed, contains
no duplicate points, and every later point was — at the moment it was
appended, as recorded by `Extends` — a member of the live candidate list
(after the linked-vertex removal at the current tip) and not yet in the Loop;
in particular every non-seed point comes from the initial post-pruning
candidate list. -/
theorem built_loop_nodup_from_candidates : ∀ (m : BMesh) (bp : Bool) (a : Nat),
    m.active = some a → a ∈ selVerts m bp →
    ∃ ext, builtLoop m bp = a :: ext ∧
      Extends m.edges (prunedSel m bp) [a] (candInit m bp) a ext ∧
      (builtLoop m bp).Nodup ∧ ∀ x ∈ ext, x ∈ candInit m bp := by
  intro m bp a ha hmem
  obtain ⟨ext, hext, hE⟩ := build_ext ((candInit m bp).length + 1) (candInit m bp).length
    [a] (candInit m bp) a 0 (by omega)
  have hloop : builtLoop m bp = a :: ext := by rw [builtLoop_some ha hmem, hext]; rfl
  refine ⟨ext, hloop, hE, ?_, extends_mem hE⟩
  rw [hloop]
  simpa using extends_nodup hE (List.nodup_singleton a)

/-- C3, witness: the theorem applied to the square scenario. -/
theorem built_loop_nodup_from_candidates_witness :
    ∃ ext, builtLoop meshSquare false = 0 :: ext ∧
      Extends meshSquare.edges (prunedSel meshSquare false) [0] (candInit meshSquare false)
        0 ext ∧
      (builtLoop meshSquare false).Nodup ∧ ∀ x ∈ ext, x ∈ candInit meshSquare false :=
  built_loop_nodup_from_candidates meshSquare false 0 rfl (by decide)

/-- C4: the while-loop of the builder terminates (it is a total function of
this development) and, started as in the source with step counter `_i = 0`
and `_l` recorded as the initial candidate count, executes at most
`initialCandidateCount + 1` iterations: the final value of `_i`, which counts
the executed loop bodies, is at most `cand.length + 1`. -/
theorem loop_builder_iteration_bound : ∀ (E : List (Nat × Nat)) (S : List Bool)
    (coords : List (Int × Int × Int)) (kdpts : List Nat) (a : Nat) (cand : List Nat),
    (build E S coords kdpts cand.length [a] cand a 0).2 ≤ cand.length + 1 := by
  intro E S coords kdpts a cand
  exact build_iters (cand.length + 1) cand.length [a] cand a 0 (by omega) (by omega)

/-- C7, counterexample: an input whose effective candidate set after pruning
has fewer than 2 members on which the operation nevertheless raises an
error (the pruning pass deselected the active vertex), contradicting the
claim that every such input finishes without error. -/
theorem degenerate_candidates_error_counterexample :
    (selVerts meshChain2 true).length < 2 ∧
    connect_loop meshChain2 true = .error "ValueError: list.remove(x): x not in list" :=
  ⟨by decide, rfl⟩

/-- C7, amended: with fewer than 2 effective candidates after pruning and an
active vertex that is absent or survived pruning, the Loop stays at the seed
(size at most 1, exactly `[a]` when an active vertex `a` exists), the chunker
yields no pairs, no edges are created and the mesh topology is unchanged
(the selection flags may still have been altered by the pruning pass), and no
error is raised. -/
theorem degenerate_candidates_no_edges : ∀ (m : BMesh) (bp : Bool),
    (selVerts m bp).length < 2 →
    (∀ a, m.active = some a → a ∈ selVerts m bp) →
    connect_loop m bp = .ok { m with sel := prunedSel m bp, edges := m.edges } ∧
    (builtLoop m bp).length ≤ 1 ∧
    (chunks (builtLoop m bp) 2 1).filter (fun c => c.length == 2) = [] ∧
    (∀ a, m.active = some a → builtLoop m bp = [a]) := by
  intro m bp hlen hact
  cases ha : m.active with
  | none =>
    have hbl : builtLoop m bp = [] := by simp [builtLoop, ha]
    refine ⟨?_, by rw [hbl]; simp, by rw [hbl]; simp [chunksPairs],
      fun a h => nomatch h⟩
    simp only [connect_loop, ha]
  | some a =>
    have hmem := hact a ha
    have hsingle : selVerts m bp = [a] := list_len_lt_two hlen hmem
    have hcand : candInit m bp = [] := by
      rw [candInit, ha, hsingle]
      exact List.erase_cons_head a []
    have hbl : builtLoop m bp = [a] := by
      rw [builtLoop_some ha hmem, hcand]
      rw [build_unfold]
      simp only [List.filter_nil, kdFind_cand_nil, Option.none_bind]
    have hch : (chunks (builtLoop m bp) 2 1).filter (fun c => c.length == 2) = [] := by
      rw [hbl]
      simp [chunksPairs]
    refine ⟨?_, by rw [hbl]; simp, hch,
      fun a2 h => by injection h with h2; rw [← h2]; exact hbl⟩
    rw [connect_loop_some ha hmem, hch, ha]
    rfl

/-- C7, witness: the amended theorem applied to a single selected active
point. -/
theorem degenerate_candidates_no_edges_witness :
    connect_loop meshSingle false =
      .ok { meshSingle with sel := prunedSel meshSingle false, edges := meshSingle.edges } ∧
    (builtLoop meshSingle false).length ≤ 1 ∧
    (chunks (builtLoop meshSingle false) 2 1).filter (fun c => c.length == 2) = [] ∧
    (∀ a, meshSingle.active = some a → builtLoop meshSingle false = [a]) :=
  degenerate_candidates_no_edges meshSingle false (by decide)
    (by
      intro a ha
      have h1 : a = 0 := by simpa [meshSingle] using ha.symm
      subst h1
      decide)

/-- C8, counterexample: with no active vertex but `boundary_priority = true`,
the operation is not a no-op — the pruning pass still mutates the mesh's
selection state (vertex 1 is deselected), contradicting the claim that the
mesh, including its selection state, is left unchanged. -/
theorem no_active_selection_mutated_counterexample :
    connect_loop meshChain2NoActive true =
      .ok { meshChain2NoActive with sel := [true, false] } ∧
    ([true, false] : List Bool) ≠ meshChain2NoActive.sel :=
  ⟨rfl, by decide⟩

/-- C8, amended: with no active vertex the operation creates no edges and
surfaces no failure, returning the mesh with only the (possibly pruned)
selection flags replaced; with `boundary_priority = false` it is a complete
no-op. -/
theorem no_active_no_edges_no_error : ∀ (m : BMesh) (bp : Bool), m.active = none →
    connect_loop m bp = .ok { m with sel := prunedSel m bp } ∧
    connect_loop m false = .ok m := by
  intro m bp ha
  exact ⟨by simp only [connect_loop, ha],
    by simp only [connect_loop, ha, prunedSel]; rw [← ha]; rfl⟩

/-- C8, witness: the amended theorem applied to the two-point chain without
an active vertex. -/
theorem no_active_no_edges_no_error_witness :
    connect_loop meshChain2NoActive true =
      .ok { meshChain2NoActive with sel := prunedSel meshChain2NoActive true } ∧
    connect_loop meshChain2NoActive false = .ok meshChain2NoActive :=
  no_active_no_edges_no_error meshChain2NoActive true rfl

/-- C9: on a loop of length `n` the chunking stage (window 2, offset 1,
followed by the size-2 filter) emits exactly `n - 1` pairs (`max(n-1,0)` in
natural-number subtraction), and the emitted list is exactly the list of
adjacent pairs `(loop[i], loop[i+1])` in loop order — each adjacent pair
once, the final underfull window discarded. -/
theorem chunker_emits_adjacent_pairs : ∀ lp : List Nat,
    ((chunks lp 2 1).filter (fun c => c.length == 2)).length = lp.length - 1 ∧
    (chunks lp 2 1).filter (fun c => c.length == 2) =
      (lp.zip lp.tail).map (fun p => [p.1, p.2]) := by
  intro lp
  refine ⟨?_, chunksPairs lp⟩
  rw [chunksPairs lp, List.length_map, List.length_zip, List.length_tail]
  omega

/-- C10: the four-point square scenario with the origin active and
`boundary_priority = false` builds exactly the Loop 0,1,2,3 (coordinates
(0,0,0),(1,0,0),(1,1,0),(0,1,0)) and creates exactly the 3 edges joining
consecutive pairs.  The first hop ties between (1,0,0) and (0,1,0) at
distance 1; the modelled index breaks ties towards the first inserted point
(§9 leaves the tie-break unspecified). -/
theorem square_scenario_loop_and_edges :
    builtLoop meshSquare false = [0, 1, 2, 3] ∧
    connect_loop meshSquare false =
      .ok { meshSquare with edges := [(0, 1), (1, 2), (2, 3)] } :=
  ⟨rfl, rfl⟩

/-- C5, counterexample: the fourteen-vertex cluster `edgesLongTail` (a path
of length 11 ending in a triangle) is connected, entirely selected, and
contains exactly one boundary point, vertex 0 (third conjunct); vertex 11
belongs to the cluster (fourth conjunct); yet after pruning with the
boundary-priority pass both vertex 0 and vertex 11 remain selected, because
the collector's depth ceiling of 10 never reaches vertex 11 — so it is false
that exactly one point of the cluster remains selected, contradicting the
claim's "no restriction on the cluster's size or graph diameter". -/
theorem prune_long_cluster_counterexample :
    selAt selLongTail 0 = true ∧
    degree edgesLongTail 0 = 1 ∧
    (∀ w, SelPath edgesLongTail selLongTail 0 w → degree edgesLongTail w = 1 → w = 0) ∧
    SelPath edgesLongTail selLongTail 0 11 ∧
    selAt (prune edgesLongTail 14 selLongTail) 0 = true ∧
    selAt (prune edgesLongTail 14 selLongTail) 11 = true ∧
    (11 : Nat) ≠ 0 := by
  refine ⟨rfl, by decide, ?_, ?_, by decide, by decide, by decide⟩
  · intro w hw hdw
    rcases selPath_sel hw with h | h
    · exact h
    · have hlt : w < 14 := by simpa [selLongTail] using selAt_lt h
      have hfin : ∀ w, w < 14 → degree edgesLongTail w = 1 → w = 0 := by decide
      exact hfin w hlt hdw
  · refine ⟨11, ?_⟩
    have h1 := SelPathN.step (SelPathN.refl (E := edgesLongTail) (S := selLongTail) (v := 0))
      (show adj edgesLongTail 0 1 = true by decide) (by decide)
    have h2 := SelPathN.step h1 (show adj edgesLongTail 1 2 = true by decide) (by decide)
    have h3 := SelPathN.step h2 (show adj edgesLongTail 2 3 = true by decide) (by decide)
    have h4 := SelPathN.step h3 (show adj edgesLongTail 3 4 = true by decide) (by decide)
    have h5 := SelPathN.step h4 (show adj edgesLongTail 4 5 = true by decide) (by decide)
    have h6 := SelPathN.step h5 (show adj edgesLongTail 5 6 = true by decide) (by decide)
    have h7 := SelPathN.step h6 (show adj edgesLongTail 6 7 = true by decide) (by decide)
    have h8 := SelPathN.step h7 (show adj edgesLongTail 7 8 = true by decide) (by decide)
    have h9 := SelPathN.step h8 (show adj edgesLongTail 8 9 = true by decide) (by decide)
    have h10 := SelPathN.step h9 (show adj edgesLongTail 9 10 = true by decide) (by decide)
    exact SelPathN.step h10 (show adj edgesLongTail 10 11 = true by decide) (by decide)

/-- C5 (amended): when a selected boundary vertex `v` (exactly one incident
edge) is the only boundary point of its connected selected cluster AND the
whole cluster lies within the depth-10 reach of the collector from `v`, the
boundary-priority pass leaves exactly one point of the cluster selected,
namely `v`: after pruning, a cluster point is selected iff it is `v`.  The
within-reach proviso is forced by the counterexample: beyond the collector's
depth ceiling the cluster is not collapsed. -/
theorem prune_unique_boundary_collapse {E : List (Nat × Nat)} {n : Nat} {S0 : List Bool}
    {v : Nat} (hv : selAt S0 v = true) (hdeg : degree E v = 1)
    (huniq : ∀ w, SelPath E S0 v w → degree E w = 1 → w = v)
    (hreach : ∀ w, SelPath E S0 v w → w ∈ linked_verts E S0 v linked_verts_recursive_deep)
    (hn : S0.length ≤ n) :
    ∀ w, SelPath E S0 v w → (selAt (prune E n S0) w = true ↔ w = v) :=
  prune_cluster hv hdeg huniq hreach hn

/-- C5, witness: the amended theorem applied to the four-point cluster
`edgesTriTail` (boundary vertex 0 attached to a triangle), at the cluster
point 2, which is indeed deselected. -/
theorem prune_unique_boundary_collapse_witness :
    selAt (prune edgesTriTail 4 selTriTail) 2 = true ↔ (2 : Nat) = 0 :=
  prune_unique_boundary_collapse (by decide) (by decide)
    (by
      intro w hw hdw
      rcases selPath_sel hw with h | h
      · exact h
      · have hlt : w < 4 := by simpa [selTriTail] using selAt_lt h
        have hfin : ∀ w, w < 4 → degree edgesTriTail w = 1 → w = 0 := by decide
        exact hfin w hlt hdw)
    (by
      intro w hw
      rcases selPath_sel hw with h | h
      · subst h
        decide
      · have hlt : w < 4 := by simpa [selTriTail] using selAt_lt h
        have hfin : ∀ w, w < 4 →
            w ∈ linked_verts edgesTriTail selTriTail 0 linked_verts_recursive_deep := by decide
        exact hfin w hlt)
    (by decide) 2
    ⟨2, SelPathN.step (SelPathN.step SelPathN.refl
        (show adj edgesTriTail 0 1 = true by decide) (by decide))
      (show adj edgesTriTail 1 2 = true by decide) (by decide)⟩

/-- C6, counterexample: on the six-vertex graph `edgesDiamondTail`, entirely
selected, vertex 5 is selected and reachable from seed 0 through a path of
selected vertices of length 3 (0-2-4-5), yet `_linked_verts(0, 3)` does not
contain it: the depth-first expansion reaches vertex 4 first through the
longer branch 0-1-3-4 with its depth budget exhausted, and the shared
visited set prevents the shorter branch from ever expanding vertex 4 —
refuting completeness up to the depth ceiling. -/
theorem linked_verts_incomplete_counterexample :
    selAt selDiamondTail 5 = true ∧
    SelPathN edgesDiamondTail selDiamondTail 0 5 3 ∧
    5 ∉ linked_verts edgesDiamondTail selDiamondTail 0 3 := by
  refine ⟨rfl, ?_, by decide⟩
  exact SelPathN.step (SelPathN.step (SelPathN.step SelPathN.refl
      (show adj edgesDiamondTail 0 2 = true by decide) (by decide))
      (show adj edgesDiamondTail 2 4 = true by decide) (by decide))
    (show adj edgesDiamondTail 4 5 = true by decide) (by decide)

/-- C6 (amended): `_linked_verts(seed, maxDepth)` always contains the seed,
and everything else it contains is a selected point reachable from the seed
through a path of selected points of length at most `maxDepth` — but it may
omit some such reachable points (see the counterexample), so only the
soundness half of the claimed characterisation holds. -/
theorem linked_verts_seed_and_sound : ∀ (E : List (Nat × Nat)) (S : List Bool) (v d : Nat),
    v ∈ linked_verts E S v d ∧
    ∀ u ∈ linked_verts E S v d,
      u = v ∨ (selAt S u = true ∧ ∃ n, n ≤ d ∧ SelPathN E S v u n) :=
  fun _ _ _ _ => ⟨linked_verts_self_mem, linked_verts_sound⟩

/-- C6, witness: the amended theorem applied to the diamond-tail graph at
depth 3 and collected vertex 1. -/
theorem linked_verts_seed_and_sound_witness :
    0 ∈ linked_verts edgesDiamondTail selDiamondTail 0 3 ∧
    ((1 : Nat) = 0 ∨ (selAt selDiamondTail 1 = true ∧
      ∃ n, n ≤ 3 ∧ SelPathN edgesDiamondTail selDiamondTail 0 1 n)) :=
  ⟨(linked_verts_seed_and_sound edgesDiamondTail selDiamondTail 0 3).1,
   (linked_verts_seed_and_sound edgesDiamondTail selDiamondTail 0 3).2 1 (by decide)⟩
